import Mathlib

/-!
# Verification of the DanishLeague tabular query engine (src/App.jsx)

A shallow embedding of the in-memory query engine of `src/App.jsx`:
spreadsheet-grid ingestion (`loadExcelFile`'s json processing), facet option
extraction (`roles`/`teams`/`regions`), filtering (`filteredData`), sorting
(`sortedData`) and date-serial decoding (`parseGoogleSheetsDate`).

JavaScript cell values are modelled by the inductive `Cell` (strings, integer
numbers, booleans, `null`, `undefined`); numbers appearing in source cells are
modelled as integers, while the value produced by the general string-to-number
conversion is modelled exactly as a decimal `JsNum` (an integer mantissa with
a power-of-ten scale).  String comparison and case-folding are modelled at
code-point / ASCII granularity (surrogate-pair order and non-ASCII case
mapping are outside the model, as are hexadecimal / exponent / `Infinity`
numeric literal forms).  `Array.prototype.sort` is modelled as a stable sort
(stability is mandated by the ECMAScript specification), realised here by a
stable insertion sort.
-/

/-- A JavaScript value as it can occur in a decoded sheet cell or in a row
object: a string, a (numeric) number, a boolean, `null`, or `undefined`. -/
inductive Cell where
  | str (s : String)
  | num (n : Int)
  | boolean (b : Bool)
  | nul
  | undefined
deriving DecidableEq

/-- JavaScript truthiness of a value (`Boolean(v)`): `''`, `0`, `false`,
`null` and `undefined` are falsy, everything else truthy. -/
def jsTruthy : Cell → Bool
  | .str s => !s.isEmpty
  | .num n => n != 0
  | .boolean b => b
  | .nul => false
  | .undefined => false

/-- JavaScript `String(v)` conversion. -/
def jsToString : Cell → String
  | .str s => s
  | .num n => toString n
  | .boolean b => if b then "true" else "false"
  | .nul => "null"
  | .undefined => "undefined"

/-- The whitespace characters recognised by the model of JavaScript's string
trimming (space, tab, line feed, carriage return, vertical tab, form feed). -/
def jsWhitespace (c : Char) : Bool :=
  c == ' ' || c == '\t' || c == '\n' || c == '\r' || c == '\u000B' || c == '\u000C'

/-- Model of `String.prototype.trim`: strip leading and trailing whitespace. -/
def strTrim (s : String) : String :=
  String.mk (((s.toList.dropWhile jsWhitespace).reverse.dropWhile jsWhitespace).reverse)

/-- Model of `String.prototype.toLowerCase` (ASCII case folding). -/
def strToLower (s : String) : String :=
  String.mk (s.toList.map Char.toLower)

/-- An exact JavaScript number `m / 10^s`: integer mantissa `m` at
power-of-ten scale `s`.  All numbers this engine manipulates are decimal
literals or integers, which this type represents exactly. -/
structure JsNum where
  m : Int
  s : Nat
deriving DecidableEq

/-- `10 ^ n` as an integer. -/
def pow10 : Nat → Int
  | 0 => 1
  | n + 1 => 10 * pow10 n

/-- Numeric comparison `a < b` of two exact decimals. -/
def jsNumLt (a b : JsNum) : Bool :=
  a.m * pow10 b.s < b.m * pow10 a.s

/-- Numeric value of a run of decimal digit characters. -/
def digitsVal (l : List Char) : Nat :=
  l.foldl (fun a c => a * 10 + (c.toNat - 48)) 0

/-- Decimal-literal part of the JavaScript string-to-number conversion:
digits with an optional fractional part (`"12"`, `"12.5"`, `".5"`, `"12."`).
`none` models NaN. -/
def parseDecimal (l : List Char) : Option JsNum :=
  let intPart := l.takeWhile Char.isDigit
  let rest := l.dropWhile Char.isDigit
  match rest with
  | [] => if intPart.isEmpty then none else some ⟨(digitsVal intPart : Int), 0⟩
  | '.' :: frac =>
      if frac.all Char.isDigit && (!intPart.isEmpty || !frac.isEmpty) then
        some ⟨(digitsVal intPart : Int) * pow10 frac.length + (digitsVal frac : Int), frac.length⟩
      else none
  | _ => none

/-- JavaScript `Number(s)` on a string: surrounding whitespace is trimmed, the
empty (or all-whitespace) string converts to `0`, signed decimal literals
convert to their value, anything else is NaN (`none`). -/
def jsStrToNum (s : String) : Option JsNum :=
  match ((s.toList.dropWhile jsWhitespace).reverse.dropWhile jsWhitespace).reverse with
  | [] => some ⟨0, 0⟩
  | '-' :: rest => (parseDecimal rest).map (fun q => ⟨-q.m, q.s⟩)
  | '+' :: rest => parseDecimal rest
  | l => parseDecimal l

/-- JavaScript `Number(v)` / the `ToNumber` coercion on a value; `none` models
NaN (so `isNaN(v)` is `(jsToNum v).isNone`). -/
def jsToNum : Cell → Option JsNum
  | .str s => jsStrToNum s
  | .num n => some ⟨n, 0⟩
  | .boolean b => some ⟨if b then 1 else 0, 0⟩
  | .nul => some ⟨0, 0⟩
  | .undefined => none

/-- Code-point lexicographic strict order on character sequences, the model of
JavaScript's `<` on two strings. -/
def charListLt : List Char → List Char → Bool
  | _, [] => false
  | [], _ :: _ => true
  | a :: as, b :: bs => a < b || (a == b && charListLt as bs)

/-- JavaScript `a < b` for two strings. -/
def jsStrLt (a b : String) : Bool :=
  charListLt a.toList b.toList

/-- Does `l` start with the sequence `pre`? -/
def startsWithSeq [BEq α] : List α → List α → Bool
  | [], _ => true
  | _ :: _, [] => false
  | a :: as, b :: bs => a == b && startsWithSeq as bs

/-- Does `l` contain `needle` as a contiguous run?  Model of
`String.prototype.includes` on the underlying characters. -/
def containsSeq [BEq α] (needle : List α) : List α → Bool
  | [] => startsWithSeq needle []
  | b :: bs => startsWithSeq needle (b :: bs) || containsSeq needle bs

/-- JavaScript `hay.includes(needle)` on strings. -/
def strHasSub (hay needle : String) : Bool :=
  containsSeq needle.toList hay.toList

/-- JavaScript `a < b` (abstract relational comparison) on two values: string
comparison when both are strings, otherwise numeric comparison after
`ToNumber` (false whenever a side is NaN). -/
def jsLt : Cell → Cell → Bool
  | .str a, .str b => jsStrLt a b
  | a, b =>
      match jsToNum a, jsToNum b with
      | some x, some y => jsNumLt x y
      | _, _ => false

/-- A row object: association list of (header label, value) in insertion
order; JavaScript object semantics (a repeated key overwrites the value but
keeps the original position). -/
abbrev Row := List (String × Cell)

/-- `obj[k] = v` on a row object: overwrite in place if the key exists,
append otherwise. -/
def objInsert : Row → String → Cell → Row
  | [], k, v => [(k, v)]
  | (k₀, v₀) :: rest, k, v =>
      if k₀ == k then (k, v) :: rest else (k₀, v₀) :: objInsert rest k v

/-- `row[k]`: the stored value, or `undefined` when the key is absent. -/
def rowGet (r : Row) (k : String) : Cell :=
  match r.find? (fun p => p.1 == k) with
  | some p => p.2
  | none => .undefined

/-- `Object.values(row)` (insertion order). -/
def rowValues (r : Row) : List Cell :=
  r.map (fun p => p.2)

/-- The normalization `row[i] || ''` applied to each source cell during
ingestion: any falsy cell becomes the empty string. -/
def normCell (v : Cell) : Cell :=
  if jsTruthy v then v else .str ""

/-- `row[i]` on a source data row: the cell, or `undefined` past the end. -/
def jsCellAt (cells : List Cell) (i : Nat) : Cell :=
  cells.getD i Cell.undefined

/-- The `hdrs.forEach((h, i) => obj[h] = row[i] || '')` loop of
`loadExcelFile`, with explicit index. -/
def mkRowAux (cells : List Cell) : Nat → List String → Row → Row
  | _, [], obj => obj
  | i, h :: hs, obj => mkRowAux cells (i + 1) hs (objInsert obj h (normCell (jsCellAt cells i)))

/-- Build one row object from the header list and one source data row. -/
def mkRow (hdrs : List String) (cells : List Cell) : Row :=
  mkRowAux cells 0 hdrs []

/-- The keep-condition of `loadExcelFile`:
`Object.values(row).some(v => v !== '')`. -/
def rowKeep (r : Row) : Bool :=
  (rowValues r).any (fun v => v != Cell.str "")

/-- `json[0].map(h => String(h || '').trim())`: header coercion. -/
def headersOf (first : List Cell) : List String :=
  first.map (fun h => strTrim (jsToString (if jsTruthy h then h else .str "")))

/-- The component state written by `loadExcelFile`'s json-processing block:
headers, kept rows, and the error state (which that block never sets). -/
structure LoadResult where
  headers : List String
  rows : List Row
  error : Option String
deriving DecidableEq

/-- The `if (json.length > 0) { ... }` block of `loadExcelFile` applied to the
decoded grid: when the grid is non-empty, the first row becomes the headers
and the remaining rows are normalized and filtered; when the grid is empty the
block is skipped entirely (no state is written, and no error is thrown). -/
def processJson (json : List (List Cell)) : LoadResult :=
  if json.length > 0 then
    let hdrs := headersOf (json.headD [])
    let rows := ((json.drop 1).map (mkRow hdrs)).filter rowKeep
    { headers := hdrs, rows := rows, error := none }
  else
    { headers := [], rows := [], error := none }

/-- `headers.find(h => h.toLowerCase().includes(target)) || ''`: the key used
for one facet column (`roleKey` / `teamKey` / `regionKey`). -/
def facetKey (hdrs : List String) (target : String) : String :=
  (hdrs.find? (fun h => strHasSub (strToLower h) target)).getD ""

/-- `[...new Set(l)]`: deduplication keeping the first occurrence, in order.
The `seen` accumulator holds the values already emitted. -/
def dedupKeepFirst [DecidableEq α] (seen : List α) : List α → List α
  | [] => []
  | a :: as =>
      if seen.contains a then dedupKeepFirst seen as
      else a :: dedupKeepFirst (a :: seen) as

/-- One insertion step of a stable sort: `x` goes immediately before the first
element `y` with `le x y`. -/
def stableInsert (le : α → α → Bool) (x : α) : List α → List α
  | [] => [x]
  | y :: ys => if le x y then x :: y :: ys else y :: stableInsert le x ys

/-- Stable insertion sort; the model of `Array.prototype.sort`, which the
ECMAScript specification requires to be stable. -/
def stableSort (le : α → α → Bool) : List α → List α
  | [] => []
  | x :: xs => stableInsert le x (stableSort le xs)

/-- The default (comparator-less) `Array.prototype.sort` order: ascending in
the string conversions of the elements, compared code-point-wise.  `le a b`
means `a` may come before `b`. -/
def cellSortLe (a b : Cell) : Bool :=
  !jsStrLt (jsToString b) (jsToString a)

/-- `[...new Set(allData.map(d => d[key]).filter(Boolean))].sort()`: the
facet option list (`roles` / `teams` / `regions`). -/
def facetOptions (hdrs : List String) (rows : List Row) (target : String) : List Cell :=
  let key := facetKey hdrs target
  stableSort cellSortLe (dedupKeepFirst [] ((rows.map (fun r => rowGet r key)).filter jsTruthy))

/-- The UI filter state read by `filteredData`: the search text and the three
facet selections (empty string = no selection). -/
structure FilterState where
  search : String
  roleFilter : String
  teamFilter : String
  regionFilter : String
deriving DecidableEq

/-- JavaScript strict equality `v === s` between a cell value and a string. -/
def strictEqStr : Cell → String → Bool
  | .str t, s => t == s
  | _, _ => false

/-- The row predicate of `filteredData`: text match over all values, and the
three facet equality checks. -/
def rowMatches (hdrs : List String) (st : FilterState) (row : Row) : Bool :=
  let matchSearch := st.search == "" ||
    (rowValues row).any (fun v => strHasSub (strToLower (jsToString v)) (strToLower st.search))
  let matchRole := st.roleFilter == "" ||
    strictEqStr (rowGet row (facetKey hdrs "role")) st.roleFilter
  let matchTeam := st.teamFilter == "" ||
    strictEqStr (rowGet row (facetKey hdrs "team")) st.teamFilter
  let matchRegion := st.regionFilter == "" ||
    strictEqStr (rowGet row (facetKey hdrs "region")) st.regionFilter
  matchSearch && matchRole && matchTeam && matchRegion

/-- `filteredData`: the rows passing all active predicates, in order. -/
def filteredData (hdrs : List String) (st : FilterState) (rows : List Row) : List Row :=
  rows.filter (rowMatches hdrs st)

/-- The comparator of `sortedData`: numeric when neither value is NaN under
`ToNumber`, otherwise the raw `<` / `>` comparisons; the direction flag
negates the result. -/
def sortCmp (hdrs : List String) (sortCol : Int) (sortAsc : Bool) (a b : Row) : Int :=
  if sortCol < 0 then 0
  else
    let key := hdrs.getD sortCol.toNat "undefined"
    let va := rowGet a key
    let vb := rowGet b key
    match jsToNum va, jsToNum vb with
    | some x, some y =>
        if jsNumLt x y then (if sortAsc then -1 else 1)
        else if jsNumLt y x then (if sortAsc then 1 else -1)
        else 0
    | _, _ =>
        if jsLt va vb then (if sortAsc then -1 else 1)
        else if jsLt vb va then (if sortAsc then 1 else -1)
        else 0

/-- `sortedData`: a stable sort of the (filtered) rows by the comparator. -/
def sortedData (hdrs : List String) (sortCol : Int) (sortAsc : Bool) (rows : List Row) : List Row :=
  stableSort (fun a b => decide (sortCmp hdrs sortCol sortAsc a b ≤ 0)) rows

/-- Days-to-civil-date conversion on the proleptic Gregorian calendar
(Howard Hinnant's `civil_from_days`), for a day count relative to
1970-01-01.  Returns (year, month, day). -/
def civilFromDays (z₀ : Int) : Int × Int × Int :=
  let z := z₀ + 719468
  let era := z.fdiv 146097
  let doe := z.fmod 146097
  let yoe := (doe - doe.fdiv 1460 + doe.fdiv 36524 - doe.fdiv 146096).fdiv 365
  let y := yoe + era * 400
  let doy := doe - (365 * yoe + yoe.fdiv 4 - yoe.fdiv 100)
  let mp := (5 * doy + 2).fdiv 153
  let d := doy - (153 * mp + 2).fdiv 5 + 1
  let m := mp + (if mp < 10 then 3 else -9)
  (y + (if m ≤ 2 then 1 else 0), m, d)

/-- Zero-padded two-digit rendering of a day or month number. -/
def pad2 (n : Int) : String :=
  if n < 10 then "0" ++ toString n else toString n

/-- The year field of `Date.prototype.toISOString`: four digits zero-padded
for years 0–9999, expanded six-digit form with sign otherwise. -/
def isoYear (y : Int) : String :=
  if y < 0 then
    "-" ++ (String.mk (List.replicate (6 - (toString (-y)).length) '0')) ++ toString (-y)
  else if y > 9999 then
    "+" ++ (String.mk (List.replicate (6 - (toString y).length) '0')) ++ toString y
  else
    (String.mk (List.replicate (4 - (toString y).length) '0')) ++ toString y

/-- `Date.UTC(1899, 11, 30)` in milliseconds: the Sheets epoch as a UTC
timestamp. -/
def sheetsEpochUtcMs : Int := -2209161600000

/-- Milliseconds per day. -/
def msPerDay : Int := 86400000

/-- The ECMAScript `Date` range bound in milliseconds (`8.64e15`); a time
value beyond it is an invalid date and `toISOString` throws. -/
def dateRangeMs : Int := 8640000000000000

/-- `parseGoogleSheetsDate(serialNumber)` of `App.jsx`, made explicit in the
environment's timezone: `new Date(1899, 11, 30)` is built in *local* time
(UTC timestamp `sheetsEpochUtcMs - tzOffsetMin·60000` for an environment
`tzOffsetMin` minutes east of UTC), `serialNumber * 86400000` milliseconds
are added, and the date part of `toISOString()` (which is in UTC) is
returned.  The time value `t = base + q·86400000` (an exact decimal with
scale `q.s`) is handled as the integer `t·10^q.s`; its floor-day is computed
by integer floor division.  `none` models a thrown exception: `toISOString`
raises a `RangeError` when the time value is NaN (unparseable serial) or
outside the `Date` range.  A falsy serial returns the empty string before any
of that. -/
def parseGoogleSheetsDate (tzOffsetMin : Int) (serial : Cell) : Option String :=
  if !jsTruthy serial then some ""
  else
    match jsToNum serial with
    | none => none
    | some q =>
        let scaled := (sheetsEpochUtcMs - tzOffsetMin * 60000) * pow10 q.s + q.m * msPerDay
        if scaled < -(dateRangeMs * pow10 q.s) || dateRangeMs * pow10 q.s < scaled then none
        else
          let days := scaled.fdiv (msPerDay * pow10 q.s)
          let c := civilFromDays days
          some (isoYear c.1 ++ "-" ++ pad2 c.2.1 ++ "-" ++ pad2 c.2.2)

/-- Is the value a string? -/
def cellIsStr : Cell → Bool
  | .str _ => true
  | _ => false

/-- A cell satisfying `cellIsStr` is a string cell. -/
theorem cellIsStr_exists {c : Cell} (h : cellIsStr c = true) : ∃ s, c = Cell.str s := by
  cases c with
  | str s => exact ⟨s, rfl⟩
  | num n => simp [cellIsStr] at h
  | boolean b => simp [cellIsStr] at h
  | nul => simp [cellIsStr] at h
  | undefined => simp [cellIsStr] at h

/-! ## Spec-side definitions

Definitions below named `spec…` / `c…Spec…` formalise the specification's
wording (for refinement comparison against the code-side definitions above);
each is written from the spec's sentences, not from the source. -/

/-- The per-facet clause of claim C1 as the spec words it: a facet that
resolves to a header constrains the row (empty selection = no constraint,
otherwise exact strict equality at the resolved header); an unresolved
(absent) facet imposes no constraint regardless of the selection. -/
def facetOrigOk (hdrs : List String) (target sel : String) (row : Row) : Bool :=
  match hdrs.find? (fun h => strHasSub (strToLower h) target) with
  | some h => sel == "" || strictEqStr (rowGet row h) sel
  | none => true

/-- The row predicate claim C1 asserts for `filter`: the case-insensitive text
match over all column values, combined with the three per-facet clauses. -/
def c1SpecMatch (hdrs : List String) (st : FilterState) (row : Row) : Bool :=
  (st.search == "" ||
    (rowValues row).any (fun v => strHasSub (strToLower (jsToString v)) (strToLower st.search)))
  && facetOrigOk hdrs "role" st.roleFilter row
  && facetOrigOk hdrs "team" st.teamFilter row
  && facetOrigOk hdrs "region" st.regionFilter row

/-- The amended C1 row predicate: as claimed, except that a facet's key is the
first matching header *or the empty-string key when none matches*, and a
non-empty selection requires the row's value at that key to be a string
strictly equal to it (so a selection on an absent facet is a real
constraint, not a no-op). -/
def c1AmendMatch (hdrs : List String) (st : FilterState) (row : Row) : Bool :=
  (st.search == "" ||
    (rowValues row).any (fun v => strHasSub (strToLower (jsToString v)) (strToLower st.search)))
  && (st.roleFilter == "" || strictEqStr (rowGet row (facetKey hdrs "role")) st.roleFilter)
  && (st.teamFilter == "" || strictEqStr (rowGet row (facetKey hdrs "team")) st.teamFilter)
  && (st.regionFilter == "" || strictEqStr (rowGet row (facetKey hdrs "region")) st.regionFilter)

/-- C1 (counterexample): on the dataset with single header `"Name"` (no header
contains `"role"`) and one row, the state with role selection `"X"` filters
the row out, while the claim's predicate (absent facet = no constraint) keeps
it: `filter` does not return exactly the claimed row set. -/
theorem c1_counterexample :
    filteredData ["Name"] ⟨"", "X", "", ""⟩ [[("Name", Cell.str "Alice")]] = [] ∧
    List.filter (c1SpecMatch ["Name"] ⟨"", "X", "", ""⟩) [[("Name", Cell.str "Alice")]]
      = [[("Name", Cell.str "Alice")]] ∧
    filteredData ["Name"] ⟨"", "X", "", ""⟩ [[("Name", Cell.str "Alice")]]
      ≠ List.filter (c1SpecMatch ["Name"] ⟨"", "X", "", ""⟩) [[("Name", Cell.str "Alice")]] := by
  refine ⟨by decide, by decide, by decide⟩

/-- C1 (amended): `filter` returns exactly the rows satisfying the amended
predicate (text match, and per-facet strict equality at the facet's key,
where an absent facet's key is the empty string), as a subsequence of the
input rows in their original order, and the empty/default FilterState
returns the full row sequence unchanged. -/
theorem c1_thm :
    ∀ (hdrs : List String) (st : FilterState) (rows : List Row),
      filteredData hdrs st rows = rows.filter (c1AmendMatch hdrs st) ∧
      List.Sublist (filteredData hdrs st rows) rows ∧
      filteredData hdrs ⟨"", "", "", ""⟩ rows = rows := by
  intro hdrs st rows
  refine ⟨rfl, List.filter_sublist _, ?_⟩
  simp [filteredData, rowMatches]

/-- C4 (counterexample): on the empty grid the json-processing block of
`loadExcelFile` sets no error at all (and produces no headers/rows) — no
`EmptySheetError` is surfaced to the caller, contrary to the claim. -/
theorem c4_counterexample :
    (processJson []).error = none ∧ (processJson []).headers = [] ∧
      (processJson []).rows = [] := by
  refine ⟨rfl, rfl, rfl⟩

/-- C4 (amended): for the empty grid, ingestion raises no error and produces
no dataset — the grid is silently skipped, leaving headers and rows empty;
for every grid with at least one row, ingestion succeeds (the headers are the
coerced first row) and no error is set. -/
theorem c4_thm :
    processJson [] = { headers := [], rows := [], error := none } ∧
    ∀ (first : List Cell) (rest : List (List Cell)),
      (processJson (first :: rest)).error = none ∧
      (processJson (first :: rest)).headers = headersOf first := by
  refine ⟨rfl, ?_⟩
  intro first rest
  constructor <;> simp [processJson]

/-- C5 (code bug): evaluation of the date decoder at the failing input.  In a
UTC environment (timezone offset 0) the decoder matches the claimed values,
but in an environment one hour east of UTC (offset +60, e.g. Copenhagen) the
very same serials render one calendar day earlier: the local-time epoch
`new Date(1899, 11, 30)` combined with the UTC-based `toISOString()` makes
the result depend on the environment's timezone, contradicting the claimed
timezone independence. -/
theorem c5_thm :
    parseGoogleSheetsDate 0 (Cell.num 0) = some "" ∧
    parseGoogleSheetsDate 0 (Cell.num 1) = some "1899-12-31" ∧
    parseGoogleSheetsDate 0 (Cell.num 44927) = some "2023-01-01" ∧
    parseGoogleSheetsDate 60 (Cell.num 1) = some "1899-12-30" ∧
    parseGoogleSheetsDate 60 (Cell.num 44927) = some "2022-12-31" := by
  refine ⟨rfl, by decide, by decide, by decide, by decide⟩

/-- C6 (counterexample): a truthy but non-numeric serial (`"abc"`) passes the
falsiness guard, `ToNumber` yields NaN, and `toISOString()` on the invalid
date throws a `RangeError` (modelled as `none`): the decoder neither returns
empty text here nor is it exception-free. -/
theorem c6_counterexample :
    jsTruthy (Cell.str "abc") = true ∧
    parseGoogleSheetsDate 0 (Cell.str "abc") = none ∧
    parseGoogleSheetsDate 0 (Cell.str "abc") ≠ some "" := by
  refine ⟨rfl, by decide, by decide⟩

/-- C6 (amended): for every falsy serial (zero, empty text, `false`, `null`,
absent) the decoder returns empty text without error; but for a truthy serial
whose `ToNumber` conversion is NaN the invalid time value reaches
`toISOString`, which raises a `RangeError` — the decoder is not
exception-free on unparseable non-empty serials. -/
theorem c6_thm :
    (∀ (tz : Int) (v : Cell), jsTruthy v = false → parseGoogleSheetsDate tz v = some "") ∧
    (∀ (tz : Int) (v : Cell), jsTruthy v = true → jsToNum v = none →
      parseGoogleSheetsDate tz v = none) := by
  constructor
  · intro tz v h
    simp [parseGoogleSheetsDate, h]
  · intro tz v h1 h2
    simp [parseGoogleSheetsDate, h1, h2]

/-- C6 (witness): the amended theorem applied at the serial `0` (falsy) and
at the truthy non-numeric serial `"x"`. -/
theorem c6_witness :
    parseGoogleSheetsDate 0 (Cell.num 0) = some "" ∧
    parseGoogleSheetsDate 0 (Cell.str "x") = none :=
  ⟨c6_thm.1 0 (Cell.num 0) (by decide), c6_thm.2 0 (Cell.str "x") (by decide) (by decide)⟩

/-- C7 (counterexample): with single header `"Name"` (no header contains
`"team"`), filtering with team selection `"Y"` returns the empty list while
filtering with no team selection returns the row — the filter result is not
independent of the selection on the absent facet. -/
theorem c7_counterexample :
    List.find? (fun h => strHasSub (strToLower h) "team") ["Name"] = none ∧
    filteredData ["Name"] ⟨"", "", "Y", ""⟩ [[("Name", Cell.str "Bob")]] = [] ∧
    filteredData ["Name"] ⟨"", "", "", ""⟩ [[("Name", Cell.str "Bob")]]
      = [[("Name", Cell.str "Bob")]] := by
  refine ⟨by decide, by decide, by decide⟩

/-- C7 (amended): when no header's case-folded text contains the facet's
target substring, the facet key resolves to the empty string; if additionally
no row has an empty-string key, a non-empty selection on the absent facet
excludes every row (the filter returns the empty list), while an empty
selection leaves the rows unconstrained.  (Stated for the team facet; the
role and region facets are symmetric.) -/
theorem c7_thm :
    ∀ (hdrs : List String) (rows : List Row) (sel : String),
      hdrs.find? (fun h => strHasSub (strToLower h) "team") = none →
      (∀ r ∈ rows, rowGet r "" = Cell.undefined) →
      sel ≠ "" →
      filteredData hdrs ⟨"", "", sel, ""⟩ rows = [] ∧
      filteredData hdrs ⟨"", "", "", ""⟩ rows = rows := by
  intro hdrs rows sel h1 h2 h3
  constructor
  · apply List.filter_eq_nil_iff.mpr
    intro r hr
    have hk : facetKey hdrs "team" = "" := by simp [facetKey, h1]
    simp [rowMatches, hk, h2 r hr, strictEqStr, h3]
  · simp [filteredData, rowMatches]

/-- C7 (witness): the amended theorem applied to the dataset with header
`"Name"`, one row, and team selection `"Q"`. -/
theorem c7_witness :
    filteredData ["Name"] ⟨"", "", "Q", ""⟩ [[("Name", Cell.str "Ann")]] = [] :=
  (c7_thm ["Name"] [[("Name", Cell.str "Ann")]] "Q" (by decide) (by decide) (by decide)).1

/-- The comparator claim C2 states for two text values: numeric comparison
when both parse as numbers (empty string parsing as zero), otherwise
code-point lexicographic text comparison; descending direction negates. -/
def specCompare (asc : Bool) (s t : String) : Int :=
  match jsStrToNum s, jsStrToNum t with
  | some x, some y =>
      if jsNumLt x y then (if asc then -1 else 1)
      else if jsNumLt y x then (if asc then 1 else -1)
      else 0
  | _, _ =>
      if jsStrLt s t then (if asc then -1 else 1)
      else if jsStrLt t s then (if asc then 1 else -1)
      else 0

/-- C2: for every pair of rows compared by sort on a selected column whose two
values are text, the code's comparator agrees with the claimed comparator
(numeric when both values parse under the general numeric-string parse,
code-point lexicographic text comparison otherwise); the empty string parses
as the number zero; and ascending sort of a column containing `"10"`, `"9"`,
`"2"` yields the order `"2"`, `"9"`, `"10"`. -/
theorem c2_thm :
    (∀ (hdrs : List String) (col : Int) (asc : Bool) (a b : Row) (s t : String),
      0 ≤ col →
      rowGet a (hdrs.getD col.toNat "undefined") = Cell.str s →
      rowGet b (hdrs.getD col.toNat "undefined") = Cell.str t →
      sortCmp hdrs col asc a b = specCompare asc s t) ∧
    jsStrToNum "" = some ⟨0, 0⟩ ∧
    (sortedData ["N"] 0 true [[("N", Cell.str "10")], [("N", Cell.str "9")], [("N", Cell.str "2")]]).map
        (fun r => rowGet r "N") = [Cell.str "2", Cell.str "9", Cell.str "10"] := by
  refine ⟨?_, by decide, by decide⟩
  intro hdrs col asc a b s t hc h1 h2
  have hneg : ¬ (col < 0) := not_lt.mpr hc
  unfold sortCmp
  rw [if_neg hneg]
  simp only [h1, h2]
  cases hx : jsStrToNum s <;> cases hy : jsStrToNum t <;>
    simp [specCompare, jsToNum, jsLt, hx, hy]

/-- C2 (witness): the comparator theorem applied at two concrete rows with
text values `"9"` and `"10"`, which compare numerically. -/
theorem c2_witness :
    sortCmp ["N"] 0 true [("N", Cell.str "9")] [("N", Cell.str "10")] = specCompare true "9" "10" ∧
    specCompare true "9" "10" = -1 :=
  ⟨c2_thm.1 ["N"] 0 true [("N", Cell.str "9")] [("N", Cell.str "10")] "9" "10"
    (by decide) (by decide) (by decide), by decide⟩

/-- Splitting view of `stableInsert`: the inserted element lands between a
prefix and a suffix of the original list. -/
theorem stableInsert_split (le : α → α → Bool) (x : α) :
    ∀ t : List α, ∃ t₁ t₂, t = t₁ ++ t₂ ∧ stableInsert le x t = t₁ ++ x :: t₂ := by
  intro t
  induction t with
  | nil => exact ⟨[], [], rfl, rfl⟩
  | cons y ys ih =>
      by_cases h : le x y = true
      · exact ⟨[], y :: ys, rfl, by simp [stableInsert, h]⟩
      · obtain ⟨t₁, t₂, h1, h2⟩ := ih
        refine ⟨y :: t₁, t₂, by simp [h1], ?_⟩
        simp [stableInsert, h, h2]

/-- Inserting an element preserves sublists of the original list. -/
theorem sublist_stableInsert (le : α → α → Bool) (x : α) {s t : List α}
    (h : List.Sublist s t) : List.Sublist s (stableInsert le x t) := by
  obtain ⟨t₁, t₂, ht, hi⟩ := stableInsert_split le x t
  subst ht
  rw [hi]
  exact h.trans (List.Sublist.append_left (List.sublist_cons_self x t₂) t₁)

/-- The sorted output is a permutation of the input. -/
theorem stableSort_perm (le : α → α → Bool) : ∀ l : List α, List.Perm (stableSort le l) l := by
  intro l
  induction l with
  | nil => exact List.Perm.refl _
  | cons x xs ih =>
      obtain ⟨t₁, t₂, ht, hi⟩ := stableInsert_split le x (stableSort le xs)
      simp only [stableSort]
      rw [hi]
      have h2 : List.Perm (t₁ ++ t₂) xs := ht ▸ ih
      exact List.Perm.trans List.perm_middle (h2.cons x)

/-- Stability of insertion: if `le a b` and `b` occurs in `s`, then inserting
`a` places it before that occurrence of `b`. -/
theorem stableInsert_pair (le : α → α → Bool) {a b : α} (hab : le a b = true) :
    ∀ {s : List α}, List.Sublist [b] s → List.Sublist [a, b] (stableInsert le a s) := by
  intro s
  induction s with
  | nil => intro h; exact absurd h (by simp)
  | cons y ys ih =>
      intro h
      by_cases hy : le a y = true
      · have he : stableInsert le a (y :: ys) = a :: y :: ys := by simp [stableInsert, hy]
        rw [he]
        exact List.Sublist.cons₂ a h
      · have he : stableInsert le a (y :: ys) = y :: stableInsert le a ys := by
          simp [stableInsert, hy]
        rw [he]
        cases h with
        | cons _ h' => exact (ih h').cons y
        | cons₂ _ h' => exact absurd hab hy

/-- C9: the sort is stable — any two rows that compare equal under the
comparator and stand in a given relative order in the input retain that
relative order in the sorted output. -/
theorem c9_thm :
    ∀ (hdrs : List String) (col : Int) (asc : Bool) (rows : List Row) (a b : Row),
      List.Sublist [a, b] rows →
      sortCmp hdrs col asc a b = 0 →
      List.Sublist [a, b] (sortedData hdrs col asc rows) := by
  intro hdrs col asc rows a b hs hc
  have hle : sortCmp hdrs col asc a b ≤ 0 := by simp [hc]
  unfold sortedData
  revert hs
  induction rows with
  | nil => intro hs; exact absurd hs (by simp)
  | cons x xs ih =>
      intro hs
      simp only [stableSort]
      cases hs with
      | cons _ h' => exact sublist_stableInsert _ _ (ih h')
      | cons₂ _ h' =>
          apply stableInsert_pair _ (by simp [hle])
          exact List.singleton_sublist.mpr
            (((stableSort_perm _ xs).mem_iff).mpr (List.singleton_sublist.mp h'))

/-- C9 (witness): two rows tying on the sort key (both `"1"`) keep their
input order in the sorted output. -/
theorem c9_witness :
    List.Sublist
      [[("N", Cell.str "1"), ("id", Cell.str "x")], [("N", Cell.str "1"), ("id", Cell.str "y")]]
      (sortedData ["N"] 0 true
        [[("N", Cell.str "1"), ("id", Cell.str "x")], [("N", Cell.str "1"), ("id", Cell.str "y")]]) :=
  c9_thm ["N"] 0 true _ _ _ (List.Sublist.refl _) (by decide)

/-- A string cell is already normalized: `s || ''` is `s` for a non-empty
string and `''` for the empty one, both equal to the original. -/
theorem normCell_str (s : String) : normCell (Cell.str s) = Cell.str s := by
  by_cases h : s = ""
  · subst h; decide
  · have hf : s.isEmpty = false := by
      cases hh : s.isEmpty
      · rfl
      · exact absurd ((String.isEmpty_iff s).mp hh) h
    simp [normCell, jsTruthy, hf]

/-- Over string cells, the ingestion normalization at a position agrees with a
plain positional read defaulting to the empty string. -/
theorem normCell_cellAt_of_isStr {cells : List Cell}
    (hstr : ∀ c ∈ cells, cellIsStr c = true) (i : Nat) :
    normCell (jsCellAt cells i) = cells.getD i (Cell.str "") := by
  by_cases h : i < cells.length
  · obtain ⟨c, hc⟩ : ∃ c, cells[i]? = some c := by
      rw [List.getElem?_eq_getElem h]; exact ⟨_, rfl⟩
    have hcm : c ∈ cells := List.getElem?_mem hc
    have hcs : cellIsStr c = true := hstr c hcm
    obtain ⟨s, rfl⟩ : ∃ s, c = Cell.str s := cellIsStr_exists hcs
    simp [jsCellAt, List.getD_eq_getElem?_getD, hc, normCell_str]
  · have hle : cells.length ≤ i := le_of_not_lt h
    simp [jsCellAt, List.getD_eq_getElem?_getD, List.getElem?_eq_none hle, normCell, jsTruthy]

/-- Writing a fresh key into a row object appends it at the end. -/
theorem objInsert_append {r : Row} {k : String} (h : ∀ p ∈ r, p.1 ≠ k) (v : Cell) :
    objInsert r k v = r ++ [(k, v)] := by
  induction r with
  | nil => rfl
  | cons q r ih =>
      obtain ⟨k₀, v₀⟩ := q
      have hq : k₀ ≠ k := h (k₀, v₀) (by simp)
      simp [objInsert, hq, ih (fun p hp => h p (List.mem_cons_of_mem _ hp))]

/-- Claim C3's Row construction: the headers zipped positionally against the
data row, a missing trailing cell becoming empty text and extra trailing
cells being ignored. -/
def specZip (cells : List Cell) : Nat → List String → Row
  | _, [] => []
  | i, h :: hs => (h, cells.getD i (Cell.str "")) :: specZip cells (i + 1) hs

/-- Claim C3's Row for a data row. -/
def specRow (hdrs : List String) (cells : List Cell) : Row :=
  specZip cells 0 hdrs

/-- Claim C3's keep-condition: at least one of the Row's values is non-empty
as given. -/
def specKeep (hdrs : List String) (cells : List Cell) : Bool :=
  ((specRow hdrs cells).map (fun p => p.2)).any (fun v => v != Cell.str "")

/-- Claim C3's ingestion result: the kept rows, in source order. -/
def specIngest (hdrs : List String) (dataRows : List (List Cell)) : List Row :=
  (dataRows.filter (specKeep hdrs)).map (specRow hdrs)

/-- Over string cells and duplicate-free headers, the `forEach` fold of
`loadExcelFile` builds exactly the positional zip of claim C3. -/
theorem mkRowAux_eq_append {cells : List Cell}
    (hstr : ∀ c ∈ cells, cellIsStr c = true) :
    ∀ (hs : List String) (i : Nat) (acc : Row),
      hs.Nodup → (∀ p ∈ acc, p.1 ∉ hs) →
      mkRowAux cells i hs acc = acc ++ specZip cells i hs := by
  intro hs
  induction hs with
  | nil => intro i acc _ _; simp [mkRowAux, specZip]
  | cons h t ih =>
      intro i acc hnd hdisj
      have hnotmem : ∀ p ∈ acc, p.1 ≠ h := by
        intro p hp
        have := hdisj p hp
        simp only [List.mem_cons, not_or] at this
        exact this.1
      simp only [mkRowAux]
      rw [objInsert_append hnotmem, normCell_cellAt_of_isStr hstr i]
      rw [ih (i + 1) (acc ++ [(h, cells.getD i (Cell.str ""))]) (List.nodup_cons.mp hnd).2 ?_]
      · simp [specZip]
      · intro p hp
        rcases List.mem_append.mp hp with hpa | hpx
        · intro hmem
          exact hdisj p hpa (List.mem_cons_of_mem _ hmem)
        · have hp2 : p = (h, cells.getD i (Cell.str "")) := by simpa using hpx
          rw [hp2]
          exact (List.nodup_cons.mp hnd).1

/-- Row construction agrees with the claimed positional zip (string cells,
duplicate-free headers). -/
theorem mkRow_eq_specRow {hdrs : List String} {cells : List Cell}
    (hstr : ∀ c ∈ cells, cellIsStr c = true) (hnd : hdrs.Nodup) :
    mkRow hdrs cells = specRow hdrs cells := by
  have h := mkRowAux_eq_append hstr hdrs 0 [] hnd (by simp)
  simpa [mkRow, specRow] using h

/-- Mapping then filtering on built rows is the claimed filter-then-map
pipeline, whenever every row builds to its positional zip. -/
theorem filter_map_eq_specIngest {hdrs : List String} :
    ∀ (dataRows : List (List Cell)),
      (∀ cells ∈ dataRows, mkRow hdrs cells = specRow hdrs cells) →
      ((dataRows.map (mkRow hdrs)).filter rowKeep) = specIngest hdrs dataRows := by
  intro dataRows
  induction dataRows with
  | nil => intro _; rfl
  | cons c cs ih =>
      intro hmem
      have hc : mkRow hdrs c = specRow hdrs c := hmem c (by simp)
      have hrest := ih (fun x hx => hmem x (List.mem_cons_of_mem _ hx))
      have hkeep : rowKeep (specRow hdrs c) = specKeep hdrs c := rfl
      by_cases hk : specKeep hdrs c = true
      · simp [specIngest, List.filter_cons, hc, hkeep, hk] at *
        exact hrest
      · have hk2 : specKeep hdrs c = false := by
          cases hx : specKeep hdrs c
          · rfl
          · exact absurd hx hk
        simp [specIngest, List.filter_cons, hc, hkeep, hk2] at *
        exact hrest

/-- All values of the claimed zip of an all-empty data row are empty text. -/
theorem specZip_vals_empty {cells : List Cell} (h : ∀ c ∈ cells, c = Cell.str "") :
    ∀ (hs : List String) (i : Nat), ∀ p ∈ specZip cells i hs, p.2 = Cell.str "" := by
  intro hs
  induction hs with
  | nil => intro i p hp; simp [specZip] at hp
  | cons hh t ih =>
      intro i p hp
      simp only [specZip, List.mem_cons] at hp
      rcases hp with hp | hp
      · subst hp
        by_cases hlt : i < cells.length
        · obtain ⟨c, hc⟩ : ∃ c, cells[i]? = some c := by
            rw [List.getElem?_eq_getElem hlt]; exact ⟨_, rfl⟩
          have := h c (List.getElem?_mem hc)
          simp [List.getD_eq_getElem?_getD, hc, this]
        · simp [List.getD_eq_getElem?_getD, List.getElem?_eq_none (le_of_not_lt hlt)]
      · exact ih (i + 1) p hp

/-- C3: for every non-empty grid of text cells with duplicate-free headers,
ingestion builds each Row by zipping the data row positionally against the
headers (missing trailing cells become empty text, extra trailing cells are
ignored), keeps a row iff at least one of its values is non-empty as given,
and preserves source order among kept rows; a data row whose every cell is
empty text never appears in the dataset rows. -/
theorem c3_thm :
    ∀ (first : List Cell) (dataRows : List (List Cell)),
      (∀ cells ∈ dataRows, ∀ c ∈ cells, cellIsStr c = true) →
      (headersOf first).Nodup →
      (processJson (first :: dataRows)).rows = specIngest (headersOf first) dataRows ∧
      ∀ cells, (∀ c ∈ cells, c = Cell.str "") →
        specRow (headersOf first) cells ∉ (processJson (first :: dataRows)).rows := by
  intro first dataRows hstr hnd
  have hmain : (processJson (first :: dataRows)).rows
      = specIngest (headersOf first) dataRows := by
    have h1 : (processJson (first :: dataRows)).rows
        = ((dataRows.map (mkRow (headersOf first))).filter rowKeep) := by
      simp [processJson]
    rw [h1]
    exact filter_map_eq_specIngest dataRows
      (fun cells hc => mkRow_eq_specRow (hstr cells hc) hnd)
  refine ⟨hmain, ?_⟩
  intro cells hemp hmem
  rw [hmain] at hmem
  obtain ⟨cells2, hc2, heq⟩ := List.mem_map.mp hmem
  have hk : specKeep (headersOf first) cells2 = true := (List.mem_filter.mp hc2).2
  unfold specKeep at hk
  rw [heq] at hk
  obtain ⟨v, hv, hvne⟩ := List.any_eq_true.mp hk
  obtain ⟨p, hp, rfl⟩ := List.mem_map.mp hv
  rw [specZip_vals_empty hemp (headersOf first) 0 p hp] at hvne
  simp at hvne

/-- C3 (witness): the end-to-end grid with headers Name/Role, one kept row
and one all-empty dropped row. -/
theorem c3_witness :
    (processJson [[Cell.str "Name", Cell.str "Role"],
        [Cell.str "Alice", Cell.str "Top"], [Cell.str "", Cell.str ""]]).rows
      = specIngest (headersOf [Cell.str "Name", Cell.str "Role"])
          [[Cell.str "Alice", Cell.str "Top"], [Cell.str "", Cell.str ""]] :=
  (c3_thm [Cell.str "Name", Cell.str "Role"]
    [[Cell.str "Alice", Cell.str "Top"], [Cell.str "", Cell.str ""]]
    (by decide) (by decide)).1

/-- Every entry of a row object after a write is an old entry or the written
pair. -/
theorem objInsert_val_mem {r : Row} {k : String} {v : Cell} :
    ∀ q ∈ objInsert r k v, q ∈ r ∨ q = (k, v) := by
  induction r with
  | nil =>
      intro q hq
      simp [objInsert] at hq
      right; exact hq
  | cons p r ih =>
      intro q hq
      obtain ⟨k₀, v₀⟩ := p
      rw [objInsert] at hq
      by_cases h : (k₀ == k) = true
      · rw [if_pos h] at hq
        rcases List.mem_cons.mp hq with hq | hq
        · right; exact hq
        · left; exact List.mem_cons_of_mem _ hq
      · rw [if_neg h] at hq
        rcases List.mem_cons.mp hq with hq | hq
        · left; simp [hq]
        · rcases ih q hq with hin | heq
          · left; exact List.mem_cons_of_mem _ hin
          · right; exact heq

/-- When every source cell is falsy, every value stored by the row-building
fold is the empty string. -/
theorem mkRowAux_vals_empty {cells : List Cell} (hf : ∀ c ∈ cells, jsTruthy c = false) :
    ∀ (hs : List String) (i : Nat) (acc : Row),
      (∀ q ∈ acc, q.2 = Cell.str "") →
      ∀ q ∈ mkRowAux cells i hs acc, q.2 = Cell.str "" := by
  intro hs
  induction hs with
  | nil => intro i acc hacc q hq; exact hacc q hq
  | cons h t ih =>
      intro i acc hacc q hq
      refine ih (i + 1) _ ?_ q hq
      intro q2 hq2
      rcases objInsert_val_mem q2 hq2 with hin | heq
      · exact hacc q2 hin
      · rw [heq]
        show normCell (jsCellAt cells i) = Cell.str ""
        have hft : jsTruthy (jsCellAt cells i) = false := by
          by_cases hlt : i < cells.length
          · obtain ⟨c, hc⟩ : ∃ c, cells[i]? = some c := by
              rw [List.getElem?_eq_getElem hlt]; exact ⟨_, rfl⟩
            have := hf c (List.getElem?_mem hc)
            simp [jsCellAt, List.getD_eq_getElem?_getD, hc, this]
          · simp [jsCellAt, List.getD_eq_getElem?_getD,
              List.getElem?_eq_none (le_of_not_lt hlt), jsTruthy]
        simp [normCell, hft]

/-- C10: every falsy source cell (`0`, `false`, `null`, missing) is
normalized to empty text during ingestion; a data row of only falsy cells is
discarded (its built Row fails the keep-condition); and appending a genuine
`0` cell to a data row builds the very same Row as leaving the cell absent,
so a `0` cell is indistinguishable downstream from an absent cell. -/
theorem c10_thm :
    (∀ c : Cell, jsTruthy c = false → normCell c = Cell.str "") ∧
    (∀ (hdrs : List String) (cells : List Cell),
        (∀ c ∈ cells, jsTruthy c = false) → rowKeep (mkRow hdrs cells) = false) ∧
    (∀ (hdrs : List String) (cells : List Cell),
        mkRow hdrs (cells ++ [Cell.num 0]) = mkRow hdrs cells) := by
  refine ⟨?_, ?_, ?_⟩
  · intro c h
    simp [normCell, h]
  · intro hdrs cells hf
    have hvals := mkRowAux_vals_empty hf hdrs 0 [] (by simp)
    show (rowValues (mkRow hdrs cells)).any (fun v => v != Cell.str "") = false
    rw [List.any_eq_false]
    intro v hv
    obtain ⟨q, hq, rfl⟩ := List.mem_map.mp hv
    rw [hvals q hq]
    simp
  · intro hdrs cells
    have key : ∀ i, normCell (jsCellAt (cells ++ [Cell.num 0]) i)
        = normCell (jsCellAt cells i) := by
      intro i
      rcases lt_trichotomy i cells.length with hlt | heq | hgt
      · simp [jsCellAt, List.getD_eq_getElem?_getD, List.getElem?_append_left hlt]
      · subst heq
        have h1 : (cells ++ [Cell.num 0])[cells.length]? = some (Cell.num 0) := by
          rw [List.getElem?_append_right (le_refl _)]
          simp
        have h2 : cells[cells.length]? = none := List.getElem?_eq_none (le_refl _)
        simp [jsCellAt, List.getD_eq_getElem?_getD, h1, h2, normCell, jsTruthy]
      · have h1 : cells.length ≤ i := le_of_lt hgt
        have h2 : (cells ++ [Cell.num 0]).length ≤ i := by
          simp only [List.length_append, List.length_cons, List.length_nil]
          omega
        simp [jsCellAt, List.getD_eq_getElem?_getD, List.getElem?_eq_none h1,
          List.getElem?_eq_none h2]
    have hfold : ∀ (hs : List String) (i : Nat) (acc : Row),
        mkRowAux (cells ++ [Cell.num 0]) i hs acc = mkRowAux cells i hs acc := by
      intro hs
      induction hs with
      | nil => intro i acc; rfl
      | cons h t ih =>
          intro i acc
          simp only [mkRowAux, key i]
          exact ih (i + 1) _
    exact hfold hdrs 0 []

/-- C10 (witness): a data row of a `0` number and `false` is discarded. -/
theorem c10_witness :
    rowKeep (mkRow ["a", "b"] [Cell.num 0, Cell.boolean false]) = false :=
  c10_thm.2.1 ["a", "b"] [Cell.num 0, Cell.boolean false] (by decide)

/-- Unfolding of the code-point order on two non-empty sequences. -/
theorem charListLt_cons_iff {a b : Char} {as bs : List Char} :
    charListLt (a :: as) (b :: bs) = true ↔ a < b ∨ (a = b ∧ charListLt as bs = true) := by
  simp [charListLt, Bool.or_eq_true, Bool.and_eq_true, decide_eq_true_eq, beq_iff_eq]

/-- The code-point order is irreflexive. -/
theorem charListLt_irrefl : ∀ l : List Char, charListLt l l = false := by
  intro l
  induction l with
  | nil => rfl
  | cons a as ih =>
      cases hx : charListLt (a :: as) (a :: as)
      · rfl
      · exfalso
        rcases charListLt_cons_iff.mp hx with h1 | ⟨_, h2⟩
        · exact lt_irrefl a h1
        · rw [ih] at h2
          exact Bool.false_ne_true h2

/-- The code-point order is transitive. -/
theorem charListLt_trans : ∀ (l₁ l₂ l₃ : List Char),
    charListLt l₁ l₂ = true → charListLt l₂ l₃ = true → charListLt l₁ l₃ = true := by
  intro l₁
  induction l₁ with
  | nil =>
      intro l₂ l₃ h12 h23
      cases l₂ with
      | nil => exact absurd h12 (by simp [charListLt])
      | cons b bs =>
          cases l₃ with
          | nil => exact absurd h23 (by simp [charListLt])
          | cons c cs => rfl
  | cons a as ih =>
      intro l₂ l₃ h12 h23
      cases l₂ with
      | nil => exact absurd h12 (by simp [charListLt])
      | cons b bs =>
          cases l₃ with
          | nil => exact absurd h23 (by simp [charListLt])
          | cons c cs =>
              rcases charListLt_cons_iff.mp h12 with hab | ⟨hab, h12t⟩ <;>
                rcases charListLt_cons_iff.mp h23 with hbc | ⟨hbc, h23t⟩
              · exact charListLt_cons_iff.mpr (Or.inl (lt_trans hab hbc))
              · refine charListLt_cons_iff.mpr (Or.inl ?_)
                rw [← hbc]; exact hab
              · refine charListLt_cons_iff.mpr (Or.inl ?_)
                rw [hab]; exact hbc
              · exact charListLt_cons_iff.mpr (Or.inr ⟨hab.trans hbc, ih bs cs h12t h23t⟩)

/-- The code-point order is connected: distinct sequences compare. -/
theorem charListLt_conn : ∀ (l₁ l₂ : List Char), l₁ ≠ l₂ →
    charListLt l₁ l₂ = true ∨ charListLt l₂ l₁ = true := by
  intro l₁
  induction l₁ with
  | nil =>
      intro l₂ hne
      cases l₂ with
      | nil => exact absurd rfl hne
      | cons b bs => exact Or.inl rfl
  | cons a as ih =>
      intro l₂ hne
      cases l₂ with
      | nil => exact Or.inr rfl
      | cons b bs =>
          by_cases hab : a = b
          · subst hab
            have hne2 : as ≠ bs := fun hh => hne (by rw [hh])
            rcases ih bs hne2 with h | h
            · exact Or.inl (charListLt_cons_iff.mpr (Or.inr ⟨rfl, h⟩))
            · exact Or.inr (charListLt_cons_iff.mpr (Or.inr ⟨rfl, h⟩))
          · rcases lt_or_gt_of_ne hab with h | h
            · exact Or.inl (charListLt_cons_iff.mpr (Or.inl h))
            · exact Or.inr (charListLt_cons_iff.mpr (Or.inl h))

/-- The code-point order is asymmetric. -/
theorem charListLt_asymm (l₁ l₂ : List Char) (h : charListLt l₁ l₂ = true) :
    charListLt l₂ l₁ = false := by
  cases hx : charListLt l₂ l₁
  · rfl
  · exfalso
    have := charListLt_trans _ _ _ h hx
    rw [charListLt_irrefl] at this
    exact Bool.false_ne_true this

/-- Transitivity of the non-strict (negated) code-point order. -/
theorem charListLt_neg_trans {a b c : List Char} (h1 : charListLt b a = false)
    (h2 : charListLt c b = false) : charListLt c a = false := by
  cases hx : charListLt c a
  · rfl
  · exfalso
    by_cases hbc : b = c
    · subst hbc
      rw [h1] at hx
      exact Bool.false_ne_true hx
    · rcases charListLt_conn b c hbc with h | h
      · have := charListLt_trans _ _ _ h hx
        rw [h1] at this
        exact Bool.false_ne_true this
      · rw [h2] at h
        exact Bool.false_ne_true h

/-- Equal character data means equal strings. -/
theorem strToList_inj {s t : String} (h : s.toList = t.toList) : s = t := by
  cases s with
  | mk d1 =>
      cases t with
      | mk d2 =>
          have hd : d1 = d2 := by simpa [String.toList] using h
          rw [hd]

/-- The default sort order in terms of the string order. -/
theorem cellSortLe_iff {a b : Cell} :
    cellSortLe a b = true ↔ jsStrLt (jsToString b) (jsToString a) = false := by
  simp [cellSortLe]

/-- The default sort order is total. -/
theorem cellSortLe_total : ∀ a b : Cell, cellSortLe a b = true ∨ cellSortLe b a = true := by
  intro a b
  by_cases h : jsStrLt (jsToString b) (jsToString a) = true
  · right
    rw [cellSortLe_iff]
    exact charListLt_asymm _ _ h
  · left
    rw [cellSortLe_iff]
    cases hx : jsStrLt (jsToString b) (jsToString a)
    · rfl
    · exact absurd hx h

/-- The default sort order is transitive. -/
theorem cellSortLe_trans : ∀ a b c : Cell,
    cellSortLe a b = true → cellSortLe b c = true → cellSortLe a c = true := by
  intro a b c h1 h2
  rw [cellSortLe_iff] at h1 h2 ⊢
  exact charListLt_neg_trans h1 h2

/-- On string cells the default sort order is antisymmetric. -/
theorem cellSortLe_antisymm_str {a b : Cell} (ha : cellIsStr a = true)
    (hb : cellIsStr b = true) (h1 : cellSortLe a b = true) (h2 : cellSortLe b a = true) :
    a = b := by
  rw [cellSortLe_iff] at h1 h2
  have hstr : jsToString a = jsToString b := by
    by_contra hne
    have hlne : (jsToString a).toList ≠ (jsToString b).toList :=
      fun hh => hne (strToList_inj hh)
    rcases charListLt_conn _ _ hlne with h | h
    · rw [jsStrLt] at h2
      rw [h2] at h
      exact Bool.false_ne_true h
    · rw [jsStrLt] at h1
      rw [h1] at h
      exact Bool.false_ne_true h
  obtain ⟨s, rfl⟩ : ∃ s, a = Cell.str s := cellIsStr_exists ha
  obtain ⟨t, rfl⟩ : ∃ t, b = Cell.str t := cellIsStr_exists hb
  simp only [jsToString] at hstr
  rw [hstr]

/-- Membership in the first-occurrence deduplication. -/
theorem mem_dedupKeepFirst [DecidableEq α] :
    ∀ (l seen : List α) (x : α), x ∈ dedupKeepFirst seen l ↔ x ∈ l ∧ x ∉ seen := by
  intro l
  induction l with
  | nil => intro seen x; simp [dedupKeepFirst]
  | cons a as ih =>
      intro seen x
      by_cases h : seen.contains a = true
      · rw [dedupKeepFirst, if_pos h, ih seen x]
        have hmem : a ∈ seen := List.elem_iff.mp h
        constructor
        · rintro ⟨hx, hnx⟩
          exact ⟨List.mem_cons_of_mem _ hx, hnx⟩
        · rintro ⟨hx, hnx⟩
          rcases List.mem_cons.mp hx with rfl | hx2
          · exact absurd hmem hnx
          · exact ⟨hx2, hnx⟩
      · rw [dedupKeepFirst, if_neg h]
        have hnmem : a ∉ seen := fun hm => h (List.elem_iff.mpr hm)
        rw [List.mem_cons, ih (a :: seen) x]
        constructor
        · rintro (rfl | ⟨hx, hnx⟩)
          · exact ⟨List.mem_cons_self _ _, hnmem⟩
          · refine ⟨List.mem_cons_of_mem _ hx, ?_⟩
            intro hm
            exact hnx (List.mem_cons_of_mem _ hm)
        · rintro ⟨hx, hnx⟩
          by_cases hxa : x = a
          · exact Or.inl hxa
          · right
            have hx2 : x ∈ as := by
              rcases List.mem_cons.mp hx with h1 | h2
              · exact absurd h1 hxa
              · exact h2
            refine ⟨hx2, ?_⟩
            intro hm
            rcases List.mem_cons.mp hm with h1 | h2
            · exact hxa h1
            · exact hnx h2

/-- The first-occurrence deduplication has no duplicates. -/
theorem nodup_dedupKeepFirst [DecidableEq α] :
    ∀ (l seen : List α), (dedupKeepFirst seen l).Nodup := by
  intro l
  induction l with
  | nil => intro seen; simp [dedupKeepFirst]
  | cons a as ih =>
      intro seen
      by_cases h : seen.contains a = true
      · rw [dedupKeepFirst, if_pos h]; exact ih seen
      · rw [dedupKeepFirst, if_neg h]
        refine List.nodup_cons.mpr ⟨?_, ih (a :: seen)⟩
        rw [mem_dedupKeepFirst]
        rintro ⟨_, hmem⟩
        exact hmem (List.mem_cons_self _ _)

/-- Membership through a stable insertion. -/
theorem mem_stableInsert (le : α → α → Bool) (x : α) (s : List α) (z : α) :
    z ∈ stableInsert le x s ↔ z = x ∨ z ∈ s := by
  obtain ⟨t₁, t₂, ht, hi⟩ := stableInsert_split le x s
  subst ht
  rw [hi]
  simp only [List.mem_append, List.mem_cons]
  tauto

/-- Stable insertion into a sorted list keeps it sorted (for a total,
transitive order). -/
theorem stableInsert_pairwise {le : α → α → Bool}
    (htot : ∀ a b, le a b = true ∨ le b a = true)
    (htr : ∀ a b c, le a b = true → le b c = true → le a c = true)
    (x : α) :
    ∀ {s : List α}, s.Pairwise (fun a b => le a b = true) →
      (stableInsert le x s).Pairwise (fun a b => le a b = true) := by
  intro s
  induction s with
  | nil => intro _; simp [stableInsert]
  | cons y ys ih =>
      intro hs
      obtain ⟨hy, hys⟩ := List.pairwise_cons.mp hs
      by_cases h : le x y = true
      · have he : stableInsert le x (y :: ys) = x :: y :: ys := by
          simp [stableInsert, h]
        rw [he]
        refine List.pairwise_cons.mpr ⟨?_, hs⟩
        intro z hz
        rcases List.mem_cons.mp hz with rfl | hz2
        · exact h
        · exact htr x y z h (hy z hz2)
      · have he : stableInsert le x (y :: ys) = y :: stableInsert le x ys := by
          simp [stableInsert, h]
        rw [he]
        refine List.pairwise_cons.mpr ⟨?_, ih hys⟩
        intro z hz
        rcases (mem_stableInsert le x ys z).mp hz with rfl | hz2
        · rcases htot z y with h1 | h1
          · exact absurd h1 h
          · exact h1
        · exact hy z hz2

/-- The stable sort output is sorted (for a total, transitive order). -/
theorem stableSort_pairwise {le : α → α → Bool}
    (htot : ∀ a b, le a b = true ∨ le b a = true)
    (htr : ∀ a b c, le a b = true → le b c = true → le a c = true) :
    ∀ l : List α, (stableSort le l).Pairwise (fun a b => le a b = true) := by
  intro l
  induction l with
  | nil => simp [stableSort]
  | cons x xs ih =>
      simp only [stableSort]
      exact stableInsert_pairwise htot htr x ih

/-- Two sorted lists that are permutations of one another are equal, given
antisymmetry of the order on the members. -/
theorem sorted_nodup_eq {le : α → α → Bool} :
    ∀ {l₁ l₂ : List α}, List.Perm l₁ l₂ →
      l₁.Pairwise (fun a b => le a b = true) →
      l₂.Pairwise (fun a b => le a b = true) →
      (∀ a b, a ∈ l₁ → b ∈ l₁ → le a b = true → le b a = true → a = b) →
      l₁ = l₂ := by
  intro l₁
  induction l₁ with
  | nil =>
      intro l₂ hp _ _ _
      exact (List.Perm.eq_nil hp.symm).symm
  | cons a t₁ ih =>
      intro l₂ hp hs₁ hs₂ hanti
      cases l₂ with
      | nil =>
          have := hp.length_eq
          simp at this
      | cons b t₂ =>
          have hab : a = b := by
            have hbmem : b ∈ a :: t₁ := hp.mem_iff.mpr (List.mem_cons_self _ _)
            have hamem : a ∈ b :: t₂ := hp.mem_iff.mp (List.mem_cons_self _ _)
            rcases List.mem_cons.mp hbmem with h1 | h1
            · exact h1.symm
            rcases List.mem_cons.mp hamem with h2 | h2
            · exact h2
            have hle1 : le a b = true := (List.pairwise_cons.mp hs₁).1 b h1
            have hle2 : le b a = true := (List.pairwise_cons.mp hs₂).1 a h2
            exact hanti a b (List.mem_cons_self _ _) (List.mem_cons_of_mem _ h1) hle1 hle2
          subst hab
          have hpt : List.Perm t₁ t₂ := hp.cons_inv
          have ht : t₁ = t₂ :=
            ih hpt (List.pairwise_cons.mp hs₁).2 (List.pairwise_cons.mp hs₂).2
              (fun x y hx hy =>
                hanti x y (List.mem_cons_of_mem _ hx) (List.mem_cons_of_mem _ hy))
          rw [ht]

/-- Claim C8's column resolution: scan the headers in order and return the
first whose case-folded text contains the target substring. -/
def specResolve : List String → String → Option String
  | [], _ => none
  | h :: t, target =>
      if strHasSub (strToLower h) target then some h else specResolve t target

/-- The claimed resolution agrees with the code's `headers.find(...)`. -/
theorem specResolve_eq_find (hdrs : List String) (target : String) :
    specResolve hdrs target = hdrs.find? (fun h => strHasSub (strToLower h) target) := by
  induction hdrs with
  | nil => rfl
  | cons h t ih =>
      by_cases hh : strHasSub (strToLower h) target = true
      · rw [specResolve, if_pos hh, List.find?_cons]
        simp [hh]
      · rw [specResolve, if_neg hh, List.find?_cons]
        have hh2 : strHasSub (strToLower h) target = false := by
          cases hx : strHasSub (strToLower h) target
          · rfl
          · exact absurd hx hh
        simp [hh2, ih]

/-- Claim C8's facet option set: empty when the facet is absent; otherwise
the distinct non-empty values of the resolved column in ascending
lexicographic order. -/
def specFacetOptions (hdrs : List String) (rows : List Row) (target : String) : List Cell :=
  match specResolve hdrs target with
  | none => []
  | some h =>
      stableSort cellSortLe
        (((rows.map (fun r => rowGet r h)).filter (fun v => v != Cell.str "")).dedup)

/-- C8 (counterexample): with headers `["", "Name"]`, no header contains
`"team"`, yet the facet options for the team facet are not empty: the absent
facet's key is the empty string, and the empty-labelled column's values are
collected. -/
theorem c8_counterexample :
    List.find? (fun h => strHasSub (strToLower h) "team") ["", "Name"] = none ∧
    facetOptions ["", "Name"] [[("", Cell.str "Z"), ("Name", Cell.str "A")]] "team"
      = [Cell.str "Z"] := by
  refine ⟨by decide, by decide⟩

/-- C8 (amended): facet resolution scans the headers in order for the first
case-folded match.  When the facet resolves and every row carries a text
value at the resolved header, the option list is exactly the claimed one:
the distinct non-empty values of that column in ascending lexicographic
order.  When no header matches, the facet key degrades to the empty string,
so the options are empty provided no row has an empty-string key (with an
empty-labelled header the empty-string column's values are collected
instead); nothing is thrown either way. -/
theorem c8_thm :
    (∀ (hdrs : List String) (rows : List Row) (target : String) (h : String),
      specResolve hdrs target = some h →
      (∀ r ∈ rows, cellIsStr (rowGet r h) = true) →
      facetOptions hdrs rows target = specFacetOptions hdrs rows target) ∧
    (∀ (hdrs : List String) (rows : List Row) (target : String),
      specResolve hdrs target = none →
      (∀ r ∈ rows, rowGet r "" = Cell.undefined) →
      facetOptions hdrs rows target = []) := by
  constructor
  · intro hdrs rows target h hres hstr
    have hk : facetKey hdrs target = h := by
      rw [facetKey, ← specResolve_eq_find, hres]
      rfl
    have hcode : facetOptions hdrs rows target
        = stableSort cellSortLe (dedupKeepFirst []
            ((rows.map (fun r => rowGet r h)).filter jsTruthy)) := by
      rw [show facetOptions hdrs rows target
          = stableSort cellSortLe (dedupKeepFirst []
              ((rows.map (fun r => rowGet r (facetKey hdrs target))).filter jsTruthy))
        from rfl, hk]
    have hspec : specFacetOptions hdrs rows target
        = stableSort cellSortLe
            (((rows.map (fun r => rowGet r h)).filter (fun v => v != Cell.str "")).dedup) := by
      unfold specFacetOptions
      rw [hres]
    rw [hcode, hspec]
    have hvstr : ∀ v ∈ rows.map (fun r => rowGet r h), cellIsStr v = true := by
      intro v hvm
      obtain ⟨r, hr, rfl⟩ := List.mem_map.mp hvm
      exact hstr r hr
    have hfeq : (rows.map (fun r => rowGet r h)).filter jsTruthy
        = (rows.map (fun r => rowGet r h)).filter (fun v => v != Cell.str "") := by
      apply List.filter_congr
      intro v hvm
      have hv := hvstr v hvm
      obtain ⟨s, rfl⟩ : ∃ s, v = Cell.str s := cellIsStr_exists hv
      by_cases hse : s = ""
      · subst hse; decide
      · have hf : s.isEmpty = false := by
          cases hh : s.isEmpty
          · rfl
          · exact absurd ((String.isEmpty_iff s).mp hh) hse
        simp [jsTruthy, hf, hse]
    rw [hfeq]
    have hflstr : ∀ v ∈ (rows.map (fun r => rowGet r h)).filter (fun v => v != Cell.str ""),
        cellIsStr v = true :=
      fun v hvm => hvstr v (List.mem_filter.mp hvm).1
    refine @sorted_nodup_eq Cell cellSortLe _ _ ?_ ?_ ?_ ?_
    · refine (stableSort_perm _ _).trans (List.Perm.trans ?_ (stableSort_perm _ _).symm)
      apply (List.perm_ext_iff_of_nodup (nodup_dedupKeepFirst _ _) (List.nodup_dedup _)).mpr
      intro x
      rw [mem_dedupKeepFirst, List.mem_dedup]
      simp
    · exact stableSort_pairwise cellSortLe_total cellSortLe_trans _
    · exact stableSort_pairwise cellSortLe_total cellSortLe_trans _
    · intro a b ha hb hab hba
      have ha2 : a ∈ (rows.map (fun r => rowGet r h)).filter (fun v => v != Cell.str "") :=
        ((mem_dedupKeepFirst _ _ _).mp ((stableSort_perm _ _).mem_iff.mp ha)).1
      have hb2 : b ∈ (rows.map (fun r => rowGet r h)).filter (fun v => v != Cell.str "") :=
        ((mem_dedupKeepFirst _ _ _).mp ((stableSort_perm _ _).mem_iff.mp hb)).1
      exact cellSortLe_antisymm_str (hflstr a ha2) (hflstr b hb2) hab hba
  · intro hdrs rows target hres hundef
    have hk : facetKey hdrs target = "" := by
      rw [facetKey, ← specResolve_eq_find, hres]
      rfl
    have hcode : facetOptions hdrs rows target
        = stableSort cellSortLe (dedupKeepFirst []
            ((rows.map (fun r => rowGet r "")).filter jsTruthy)) := by
      rw [show facetOptions hdrs rows target
          = stableSort cellSortLe (dedupKeepFirst []
              ((rows.map (fun r => rowGet r (facetKey hdrs target))).filter jsTruthy))
        from rfl, hk]
    have hfil : (rows.map (fun r => rowGet r "")).filter jsTruthy = [] := by
      rw [List.filter_eq_nil_iff]
      intro v hv
      obtain ⟨r, hr, rfl⟩ := List.mem_map.mp hv
      rw [hundef r hr]
      simp [jsTruthy]
    rw [hcode, hfil]
    rfl

/-- C8 (witness): the resolved-facet conjunct applied to a two-row dataset
with a `Team` column holding `"B"` and `"A"`, whose claimed option list is
`["A", "B"]`. -/
theorem c8_witness :
    facetOptions ["Team"] [[("Team", Cell.str "B")], [("Team", Cell.str "A")]] "team"
      = specFacetOptions ["Team"] [[("Team", Cell.str "B")], [("Team", Cell.str "A")]] "team" ∧
    specFacetOptions ["Team"] [[("Team", Cell.str "B")], [("Team", Cell.str "A")]] "team"
      = [Cell.str "A", Cell.str "B"] :=
  ⟨c8_thm.1 ["Team"] [[("Team", Cell.str "B")], [("Team", Cell.str "A")]] "team" "Team"
    (by decide) (by decide), by decide⟩
